import Mathlib

/-!
# Verification of the contract-news RSS aggregation pipeline (src/main.py)

This file is a shallow embedding, in Lean 4, of the single-file Python program
`src/main.py`: a scheduled pipeline that searches the web (Tavily) for a fixed
set of queries, deduplicates the returned URLs, extracts each article's text
(Jina reader), classifies each article with a language model (Gemini), and
writes the accumulated important articles to an RSS feed file.

Modelling conventions:
* Python text is modelled as `List Char` for the text-processing functions and
  as `String` where only equality matters (URLs, keys, feed metadata).
* Python runtime values that flow through JSON (`json.loads` results, the
  fields of the classifier verdict) are modelled by the inductive `PyVal`,
  with Python truthiness given by `pyTruthy`.
* The three external services are oracles (`Oracles`): each maps the request
  data to `none` (the request raised the exception caught by the code) or
  `some` response.  The pipeline functions are direct transliterations of the
  Python functions, over those oracles.
* `json.loads` is modelled by `pyLoads`, a fuel-based recursive-descent JSON
  reader covering null / booleans / integers / strings / arrays / objects
  (floats and `\u` escapes are not modelled; no claim depends on them).
  A non-object parse result makes `analyze_with_gemini` return `none`, as in
  the code, where `result.get` raises `AttributeError` on non-dict values and
  the `except` clause returns `None`.
-/

set_option autoImplicit false

/-- Python values as they appear after `json.loads` (plus `None`). -/
inductive PyVal where
  | none : PyVal
  | bool : Bool → PyVal
  | int : Int → PyVal
  | str : String → PyVal
  | list : List PyVal → PyVal
  | dict : List (String × PyVal) → PyVal

/-- Python truthiness (`bool(v)`): `None`/`False`/`0`/empty containers are
falsy, everything else is truthy. -/
def pyTruthy : PyVal → Bool
  | .none => false
  | .bool b => b
  | .int n => n ≠ 0
  | .str s => s ≠ ""
  | .list xs => !xs.isEmpty
  | .dict kvs => !kvs.isEmpty

/-- Python `d.get(k, default)`.  On a non-dict value this models the
behaviour only where the program actually calls it (the program only calls
`.get` on dicts; `analyze_with_gemini` filters non-dict parse results out).
Duplicate keys keep the last binding, as `json.loads` does. -/
def pyGetDef (v : PyVal) (k : String) (default : PyVal) : PyVal :=
  match v with
  | .dict kvs => (((kvs.reverse.find? (fun kv => kv.1 == k)).map Prod.snd).getD default)
  | _ => default

/-- Python `d.get(k)` (default `None`). -/
def pyGet (v : PyVal) (k : String) : PyVal := pyGetDef v k .none

def quoteChar : Char := Char.ofNat 34

def apostChar : Char := Char.ofNat 39

/-- Comma-and-space join, used by the Python `repr` of containers. -/
def commaJoin : List (List Char) → List Char
  | [] => []
  | [l] => l
  | l :: ls => l ++ ',' :: ' ' :: commaJoin ls

mutual

/-- Python `repr(v)` (simplified: string quoting does not escape embedded
quotes; no claim renders such values). -/
def pyRepr : PyVal → List Char
  | .none => "None".toList
  | .bool true => "True".toList
  | .bool false => "False".toList
  | .int n => (toString n).toList
  | .str s => apostChar :: (s.toList ++ [apostChar])
  | .list xs => '[' :: (commaJoin (pyReprList xs) ++ [']'])
  | .dict kvs => '\x7b' :: (commaJoin (pyReprKVs kvs) ++ ['\x7d'])

def pyReprList : List PyVal → List (List Char)
  | [] => []
  | v :: vs => pyRepr v :: pyReprList vs

def pyReprKVs : List (String × PyVal) → List (List Char)
  | [] => []
  | (k, v) :: r => (apostChar :: (k.toList ++ apostChar :: ':' :: ' ' :: pyRepr v)) :: pyReprKVs r

end

/-- Python `str(v)` as used by f-string interpolation: identity on strings,
`repr` on everything else. -/
def pyStr : PyVal → List Char
  | .str s => s.toList
  | v => pyRepr v

/-! ## Python string helpers (`strip`, `replace`, `split`, `join`) -/

/-- The whitespace characters removed by Python `str.strip()`. -/
def isPySpace (c : Char) : Bool :=
  c = ' ' || c = '\t' || c = '\n' || c = '\r' || c = '\x0b' || c = '\x0c'

/-- Left part of Python `str.strip()`. -/
def lstrip (s : List Char) : List Char := s.dropWhile isPySpace

/-- Right part of Python `str.strip()`. -/
def rstrip (s : List Char) : List Char := (s.reverse.dropWhile isPySpace).reverse

/-- Python `str.strip()`. -/
def pyStrip (s : List Char) : List Char := rstrip (lstrip s)

/-- One fuelled step list for Python `str.replace`: replaces every
non-overlapping occurrence of `pat`, scanning left to right.  The fuel is at
least the length of the scanned list, so it never runs out (`replGo_fuel`). -/
def replGo (pat rep : List Char) : Nat → List Char → List Char
  | 0, s => s
  | _ + 1, [] => []
  | fuel + 1, c :: rest =>
    if pat ≠ [] ∧ pat.isPrefixOf (c :: rest) then
      rep ++ replGo pat rep fuel (rest.drop (pat.length - 1))
    else
      c :: replGo pat rep fuel rest

/-- Python `s.replace(pat, rep)` (for non-empty `pat`, the only way the
program uses it). -/
def pyReplace (s pat rep : List Char) : List Char := replGo pat rep s.length s

/-- `true` iff `pat` occurs as a contiguous sublist of `s`. -/
def hasSub (pat : List Char) : List Char → Bool
  | [] => pat.isPrefixOf ([] : List Char)
  | c :: rest => pat.isPrefixOf (c :: rest) || hasSub pat rest

/-- Python `s.split('\n')`. -/
def splitNL : List Char → List (List Char)
  | [] => [[]]
  | c :: rest =>
    if c = '\n' then [] :: splitNL rest
    else
      match splitNL rest with
      | [] => [[c]]
      | h :: t => (c :: h) :: t

/-- Python `'\n'.join(ls)`. -/
def joinNL : List (List Char) → List Char
  | [] => []
  | l :: ls =>
    match ls with
    | [] => l
    | _ :: _ => l ++ '\n' :: joinNL ls

/-! ## A model of `json.loads` -/

/-- JSON structural whitespace. -/
def isJsonWs (c : Char) : Bool := c = ' ' || c = '\t' || c = '\n' || c = '\r'

def skipWs (s : List Char) : List Char := s.dropWhile isJsonWs

/-- Parse the remainder of a JSON string literal (the opening quote has been
consumed); returns the decoded characters and the rest of the input.
`\u` escapes are not modelled (they make the parse fail). -/
def parseJStr : Nat → List Char → Option (List Char × List Char)
  | 0, _ => Option.none
  | _, [] => Option.none
  | fuel + 1, c :: rest =>
    if c = quoteChar then some ([], rest)
    else if c = '\\' then
      match rest with
      | [] => Option.none
      | e :: rest' =>
        let decoded : Option Char :=
          if e = quoteChar then some quoteChar
          else if e = '\\' then some '\\'
          else if e = '/' then some '/'
          else if e = 'n' then some '\n'
          else if e = 't' then some '\t'
          else if e = 'r' then some '\r'
          else if e = 'b' then some (Char.ofNat 8)
          else if e = 'f' then some (Char.ofNat 12)
          else Option.none
        match decoded with
        | Option.none => Option.none
        | some ch => (parseJStr fuel rest').map (fun p => (ch :: p.1, p.2))
    else (parseJStr fuel rest).map (fun p => (c :: p.1, p.2))

def digitsToNat (ds : List Char) : Nat :=
  ds.foldl (fun n c => n * 10 + (c.toNat - 48)) 0

/-- Parse a JSON integer (floats are not modelled: a fraction or exponent
part makes the parse fail). -/
def parseNum (s : List Char) : Option (Int × List Char) :=
  let signed : Bool × List Char :=
    match s with
    | '-' :: r => (true, r)
    | _ => (false, s)
  let ds := signed.2.takeWhile (fun c => c.isDigit)
  let rest := signed.2.dropWhile (fun c => c.isDigit)
  if ds = [] then Option.none
  else
    match rest with
    | '.' :: _ => Option.none
    | 'e' :: _ => Option.none
    | 'E' :: _ => Option.none
    | _ => some ((if signed.1 then -(digitsToNat ds : Int) else (digitsToNat ds : Int)), rest)

mutual

/-- Fuelled recursive-descent JSON value reader. -/
def parseVal : Nat → List Char → Option (PyVal × List Char)
  | 0, _ => Option.none
  | fuel + 1, s =>
    match skipWs s with
    | [] => Option.none
    | c :: rest =>
      if c = 'n' then
        if "ull".toList.isPrefixOf rest then some (.none, rest.drop 3) else Option.none
      else if c = 't' then
        if "rue".toList.isPrefixOf rest then some (.bool true, rest.drop 3) else Option.none
      else if c = 'f' then
        if "alse".toList.isPrefixOf rest then some (.bool false, rest.drop 4) else Option.none
      else if c = quoteChar then
        (parseJStr fuel rest).map (fun p => (.str p.1.asString, p.2))
      else if c = '[' then
        match skipWs rest with
        | ']' :: r => some (.list [], r)
        | s' => parseElems fuel [] s'
      else if c = '\x7b' then
        match skipWs rest with
        | '\x7d' :: r => some (.dict [], r)
        | s' => parseMembers fuel [] s'
      else
        (parseNum (c :: rest)).map (fun p => (.int p.1, p.2))

/-- Parse the elements of a non-empty JSON array (after `[`). -/
def parseElems : Nat → List PyVal → List Char → Option (PyVal × List Char)
  | 0, _, _ => Option.none
  | fuel + 1, acc, s =>
    match parseVal fuel s with
    | Option.none => Option.none
    | some (v, r) =>
      match skipWs r with
      | ',' :: r' => parseElems fuel (acc ++ [v]) r'
      | ']' :: r' => some (.list (acc ++ [v]), r')
      | _ => Option.none

/-- Parse the members of a non-empty JSON object (after the opening brace). -/
def parseMembers : Nat → List (String × PyVal) → List Char → Option (PyVal × List Char)
  | 0, _, _ => Option.none
  | fuel + 1, acc, s =>
    match skipWs s with
    | c :: rest =>
      if c = quoteChar then
        match parseJStr fuel rest with
        | Option.none => Option.none
        | some (k, r) =>
          match skipWs r with
          | ':' :: r' =>
            match parseVal fuel r' with
            | Option.none => Option.none
            | some (v, r'') =>
              match skipWs r'' with
              | ',' :: r3 => parseMembers fuel (acc ++ [(k.asString, v)]) r3
              | '\x7d' :: r3 => some (.dict (acc ++ [(k.asString, v)]), r3)
              | _ => Option.none
          | _ => Option.none
      else Option.none
    | [] => Option.none

end

/-- Model of Python `json.loads`: parse one JSON value and require only
whitespace after it; `Option.none` models the raised `JSONDecodeError`. -/
def pyLoads (s : List Char) : Option PyVal :=
  match parseVal (s.length + 8) s with
  | some (v, rest) => if skipWs rest = [] then some v else Option.none
  | Option.none => Option.none

/-! ## Configuration constants (src/main.py lines 11-23) -/

/-- The fixed query set (`SEARCH_QUERIES`, main.py:11). -/
def SEARCH_QUERIES : List String :=
  ["契約書 法改正 ニュース",
   "電子契約 最新動向",
   "下請法 ニュース 2024",
   "個人情報保護法 規約改定",
   "リーガルテック 契約業務"]

def RSS_FEED_LINK : String :=
  "https://github.com/momocatmeow-contract-news-rss/momocatmeow-contract-news-rss"

def RSS_FEED_TITLE : String := "AI厳選！契約書関連ニュース"

def RSS_FEED_DESCRIPTION : String := "AIがWebから自動収集した契約関連の最新ニュースです。（本文表示）"

def RSS_FILE_NAME : String := "feed.xml"

/-! ## External-call oracles

Each per-call outcome of the three external services is an oracle value:
`none` models the exception branch the Python code catches, `some` the
successful response. -/

structure Oracles where
  /-- Tavily: query string ↦ decoded JSON response body of the POST
  (main.py:66-77); `none` models `requests.exceptions.RequestException`. -/
  search : String → Option PyVal
  /-- Jina reader: url ↦ `response.text` (main.py:90-92); `none` models
  `requests.exceptions.RequestException` (incl. timeout / non-2xx). -/
  fetch : String → Option (List Char)
  /-- Gemini: article text ↦ `response.text` (main.py:109-110); `none`
  models an exception from `generate_content`. -/
  model : List Char → Option (List Char)

/-! ## `search_with_tavily` (main.py:62-83) -/

/-- main.py:77-78: `results = response.json().get("results", [])` and
`urls = [res.get("url") for res in results if res.get("url")]`.
URL values are modelled as strings, per the Tavily API contract (`url`
fields are strings; for other value shapes the Python code would put
non-string values in the list or raise on `.get`, which no claim covers). -/
def tavilyUrls (v : PyVal) : List String :=
  match pyGetDef v "results" (.list []) with
  | .list results =>
    results.filterMap (fun res =>
      match pyGet res "url" with
      | .str s => if s ≠ "" then some s else Option.none
      | _ => Option.none)
  | _ => []

/-- main.py:62-83: on request failure return `[]`, else the url list. -/
def search_with_tavily (o : Oracles) (query : String) : List String :=
  match o.search query with
  | Option.none => []
  | some v => tavilyUrls v

/-! ## `get_article_content_from_jina` (main.py:85-100) -/

/-- main.py:95: `line.strip().startswith('#')`. -/
def isHeadLine (l : List Char) : Bool :=
  match pyStrip l with
  | '#' :: _ => true
  | _ => false

/-- main.py:94-96: scan the split lines; at the first heading line return
that line together with everything after it. -/
def headingSuffix : List (List Char) → Option (List (List Char))
  | [] => Option.none
  | l :: rest => if isHeadLine l then some (l :: rest) else headingSuffix rest

/-- main.py:93-97: post-processing of the fetched text — from the first
heading line on, or the whole text if there is no heading line. -/
def jinaPost (content : List Char) : List Char :=
  match headingSuffix (splitNL content) with
  | some ls => joinNL ls
  | Option.none => content

/-- main.py:85-100: `None` on request failure, otherwise the post-processed
response text. -/
def get_article_content_from_jina (o : Oracles) (url : String) : Option (List Char) :=
  match o.fetch url with
  | Option.none => Option.none
  | some content => some (jinaPost content)

/-! ## `analyze_with_gemini` (main.py:102-120) -/

/-- main.py:110: `response.text.strip().replace("```json", "").replace("```", "").strip()`. -/
def cleanGemini (s : List Char) : List Char :=
  pyStrip (pyReplace (pyReplace (pyStrip s) "```json".toList []) "```".toList [])

/-- main.py:102-120: call the model, clean the response, `json.loads` it.
A parse result that is not a dict makes line 112's `result.get` raise
`AttributeError`, which the `except` catches, returning `None`; hence only
dict results survive. -/
def analyze_with_gemini (o : Oracles) (article_text : List Char) : Option PyVal :=
  match o.model article_text with
  | Option.none => Option.none
  | some respText =>
    match pyLoads (cleanGemini respText) with
    | some (.dict kvs) => some (.dict kvs)
    | some _ => Option.none
    | Option.none => Option.none

/-! ## `main` (main.py:123-189) -/

/-- The per-article record built at main.py:145-150. -/
structure Article where
  title : PyVal
  category : PyVal
  link : String
  full_text : List Char

/-- Trace of the processing of one URL of the deduplicated set
(main.py:136-151): the extractor call, the classifier calls made (0 or 1),
and the accumulated article, if any. -/
structure URLStep where
  fetchCalls : List String
  geminiCalls : List (List Char)
  article : Option Article

/-- main.py:145-150: the dict appended to `important_articles`. -/
def mkArticle (r : PyVal) (url : String) (text : List Char) : Article :=
  { title := pyGetDef r "title" (.str "No Title"),
    category := pyGetDef r "category" (.str "N/A"),
    link := url,
    full_text := text }

/-- main.py:136-151: one iteration of the per-URL loop.  `if article_text:`
tests Python truthiness, so `None` and the empty string both skip the URL.
`if analysis_result and analysis_result.get("is_important"):` tests the
truthiness of the dict and then of the field. -/
def processURL (o : Oracles) (url : String) : URLStep :=
  match get_article_content_from_jina o url with
  | Option.none => ⟨[url], [], Option.none⟩
  | some text =>
    if text = [] then ⟨[url], [], Option.none⟩
    else
      match analyze_with_gemini o text with
      | Option.none => ⟨[url], [text], Option.none⟩
      | some r =>
        if pyTruthy r && pyTruthy (pyGet r "is_important") then
          ⟨[url], [text], some (mkArticle r url text)⟩
        else
          ⟨[url], [text], Option.none⟩

/-- main.py:127-131: `all_urls = set()` and `all_urls.add(url)`; the set is
modelled as an insertion-ordered duplicate-free list (iteration order of a
Python set is implementation-defined; first-insertion order is this model's
choice). -/
def pySetAdd (s : List String) (u : String) : List String :=
  if u ∈ s then s else s ++ [u]

def collectUrls (o : Oracles) : List String :=
  SEARCH_QUERIES.foldl (fun s q => (search_with_tavily o q).foldl pySetAdd s) []

structure FeedItem where
  title : PyVal
  link : String
  description : List Char

structure Feed where
  title : String
  link : String
  description : String
  items : List FeedItem

/-- main.py:184: `full_text_content.replace('\n', '<br/>')`. -/
def nlToBr (text : List Char) : List Char := pyReplace text ['\n'] "<br/>".toList

/-- main.py:180-184: the category segment of the item description
(`f"<b>【カテゴリ】: {category}</b><br/><br/><hr/><br/>"`). -/
def catSeg (category : PyVal) : List Char :=
  "<b>【カテゴリ】: ".toList ++ pyStr category ++ "</b><br/><br/><hr/><br/>".toList

/-- main.py:175-184: one feed entry per accumulated article.  Line 181's
`article.get("full_text", ...)` default is dead code: the field is always
present in the dict built at lines 145-150. -/
def mkItem (a : Article) : FeedItem :=
  { title := a.title,
    link := a.link,
    description := catSeg a.category ++ nlToBr a.full_text }

/-- Observable trace of one run of `main` (main.py:123-189). -/
structure RunResult where
  extractorCalls : List String
  geminiCallLog : List (List Char)
  articles : List Article
  writes : List (String × Feed)

/-- main.py:123-189.  Both exits of `main` (the early return at 155-164 for
an empty accumulator and the normal path at 169-188) write the feed file
exactly once with the same fixed metadata; the branch is kept to mirror the
code. -/
def runMain (o : Oracles) : RunResult :=
  let all_urls := collectUrls o
  let steps := all_urls.map (processURL o)
  let important_articles := steps.filterMap (fun st => st.article)
  { extractorCalls := (steps.map (fun st => st.fetchCalls)).flatten,
    geminiCallLog := (steps.map (fun st => st.geminiCalls)).flatten,
    articles := important_articles,
    writes :=
      if important_articles.isEmpty then
        [(RSS_FILE_NAME,
          { title := RSS_FEED_TITLE, link := RSS_FEED_LINK,
            description := RSS_FEED_DESCRIPTION, items := [] })]
      else
        [(RSS_FILE_NAME,
          { title := RSS_FEED_TITLE, link := RSS_FEED_LINK,
            description := RSS_FEED_DESCRIPTION,
            items := important_articles.map mkItem })] }

/-- The items of all feed documents written by a run. -/
def feedItems (r : RunResult) : List FeedItem :=
  (r.writes.map (fun w => w.2.items)).flatten

/-! ## Spec-side definitions -/

/-- Modelled from the spec's words (§4.3): the index of the first line that,
after trimming whitespace, starts with a heading symbol — to be compared
with the implementation's scan. -/
def specFirstHead : List (List Char) → Option Nat
  | [] => Option.none
  | l :: ls => if isHeadLine l then some 0 else (specFirstHead ls).map (fun i => i + 1)

/-- A verdict text wrapped in markdown code fences, the shape the spec's
code-fence clause (§4.4) is about. -/
def wrapJson (p : List Char) : List Char :=
  "```json\n".toList ++ p ++ "\n```".toList

/-- A separator-style join: `sep.intercalate`, matching Python
`sep.join`. -/
def joinBy (sep : List Char) : List (List Char) → List Char
  | [] => []
  | l :: ls =>
    match ls with
    | [] => l
    | _ :: _ => l ++ sep ++ joinBy sep ls

/-! ## Concrete oracles used to instantiate the theorems -/

/-- Every external call fails. -/
def oAllFail : Oracles :=
  { search := fun _ => Option.none,
    fetch := fun _ => Option.none,
    model := fun _ => Option.none }

/-- A Tavily response listing urls `a`, `b`, `a` (one duplicate). -/
def tavilyTwo : PyVal :=
  .dict [("results", .list
    [.dict [("url", .str "a")], .dict [("url", .str "b")], .dict [("url", .str "a")]])]

/-- A run in which `a` is classified important (fenced verdict) and `b` is
not. -/
def oW : Oracles :=
  { search := fun _ => some tavilyTwo,
    fetch := fun u =>
      if u = "a" then some "# A\nbody a".toList
      else if u = "b" then some "# B\nbody b".toList
      else Option.none,
    model := fun t =>
      if t = "# A\nbody a".toList then
        some (wrapJson "\x7b\"is_important\": true, \"title\": \"TA\", \"category\": \"Law\"\x7d".toList)
      else some "\x7b\"is_important\": false\x7d".toList }

/-- A run whose verdicts carry non-boolean `is_important` values. -/
def oW9 : Oracles :=
  { search := fun _ => some tavilyTwo,
    fetch := fun u =>
      if u = "a" then some "xa".toList
      else if u = "b" then some "xb".toList
      else Option.none,
    model := fun t =>
      if t = "xa".toList then some "\x7b\"is_important\": \"yes\"\x7d".toList
      else some "\x7b\"is_important\": 0\x7d".toList }

/-- A run exercising every soft-failure path: search fails, fetching `a`
fails, fetching `b` yields an article whose classification output is not
JSON. -/
def oNJ : Oracles :=
  { search := fun _ => Option.none,
    fetch := fun u => if u = "b" then some "xb".toList else Option.none,
    model := fun t => if t = "xb".toList then some "not json".toList else Option.none }

/-- A run in which fetching `a` succeeds with an empty body. -/
def oEmptyFetch : Oracles :=
  { search := fun _ => Option.none,
    fetch := fun u => if u = "a" then some [] else Option.none,
    model := fun _ => Option.none }

/-- The classifier response of the C4 counterexample: a JSON verdict whose
string payload itself contains a code-fence marker, with no leading or
trailing fence and no surrounding whitespace. -/
def c4bad : List Char := "\x7b\"t\": \"a```b\"\x7d".toList

/-- A fence-free JSON verdict payload. -/
def c4good : List Char := "\x7b\"is_important\": true\x7d".toList

/-- The article record accumulated for url `a` under `oW`. -/
def a0W : Article :=
  mkArticle (.dict [("is_important", .bool true), ("title", .str "TA"),
    ("category", .str "Law")]) "a" "# A\nbody a".toList

/-! ## Helper lemmas: `replGo` / `hasSub` -/

theorem replGo_nil (pat rep : List Char) (f : Nat) : replGo pat rep f [] = [] := by
  cases f <;> rfl

theorem replGo_fuel (pat rep : List Char) :
    ∀ (f₁ : Nat), ∀ (f₂ : Nat) (s : List Char), s.length ≤ f₁ → s.length ≤ f₂ →
      replGo pat rep f₁ s = replGo pat rep f₂ s := by
  intro f₁
  induction f₁ with
  | zero =>
    intro f₂ s h1 _
    have hs : s = [] := List.length_eq_zero.mp (Nat.le_zero.mp h1)
    subst hs
    rw [replGo_nil, replGo_nil]
  | succ f₁ ih =>
    intro f₂ s h1 h2
    cases s with
    | nil => rw [replGo_nil, replGo_nil]
    | cons c rest =>
      cases f₂ with
      | zero => simp at h2
      | succ f₂ =>
        simp only [replGo]
        by_cases hp : pat ≠ [] ∧ pat.isPrefixOf (c :: rest)
        · rw [if_pos hp, if_pos hp]
          congr 1
          apply ih
          · have := List.length_drop (pat.length - 1) rest
            simp only [List.length_cons] at h1
            omega
          · have := List.length_drop (pat.length - 1) rest
            simp only [List.length_cons] at h2
            omega
        · rw [if_neg hp, if_neg hp]
          congr 1
          apply ih
          · simp only [List.length_cons] at h1; omega
          · simp only [List.length_cons] at h2; omega

theorem replGo_of_hasSub_false (pat rep : List Char) (s : List Char)
    (h : hasSub pat s = false) : ∀ f, replGo pat rep f s = s := by
  induction s with
  | nil => intro f; exact replGo_nil pat rep f
  | cons c rest ih =>
    intro f
    simp only [hasSub, Bool.or_eq_false_iff] at h
    cases f with
    | zero => rfl
    | succ f =>
      simp only [replGo]
      rw [if_neg (by simp [h.1]), ih h.2 f]

theorem hasSub_mono_pat (pat q s : List Char)
    (h : hasSub (pat ++ q) s = true) : hasSub pat s = true := by
  induction s with
  | nil =>
    simp only [hasSub] at h ⊢
    rw [List.isPrefixOf_iff_prefix] at h
    obtain ⟨h1, -⟩ := List.append_eq_nil.mp (List.prefix_nil.mp h)
    subst h1
    simp [List.isPrefixOf_iff_prefix]
  | cons c rest ih =>
    simp only [hasSub, Bool.or_eq_true, List.isPrefixOf_iff_prefix] at h ⊢
    rcases h with h | h
    · exact Or.inl ((List.prefix_append pat q).trans h)
    · exact Or.inr (ih h)

theorem hasSub_append_left (pat xs ys : List Char)
    (h : hasSub pat xs = true) : hasSub pat (xs ++ ys) = true := by
  induction xs with
  | nil =>
    simp only [hasSub] at h
    rw [List.isPrefixOf_iff_prefix] at h
    rcases List.prefix_nil.mp h with rfl
    cases ys with
    | nil => rfl
    | cons y ys =>
      simp only [List.nil_append, hasSub, Bool.or_eq_true, List.isPrefixOf_iff_prefix]
      exact Or.inl List.nil_prefix
  | cons c rest ih =>
    simp only [List.cons_append, hasSub, Bool.or_eq_true,
      List.isPrefixOf_iff_prefix] at h ⊢
    rcases h with h | h
    · exact Or.inl (h.trans (by simp))
    · exact Or.inr (ih h)

theorem hasSub_append_right (pat xs ys : List Char)
    (h : hasSub pat ys = true) : hasSub pat (xs ++ ys) = true := by
  induction xs with
  | nil => simpa using h
  | cons c rest ih =>
    simp only [List.cons_append, hasSub, Bool.or_eq_true]
    exact Or.inr ih

theorem hasSub_append_left_false (pat xs ys : List Char)
    (h : hasSub pat (xs ++ ys) = false) : hasSub pat xs = false := by
  cases hv : hasSub pat xs with
  | false => rfl
  | true => simp [hasSub_append_left pat xs ys hv] at h

theorem hasSub_append_right_false (pat xs ys : List Char)
    (h : hasSub pat (xs ++ ys) = false) : hasSub pat ys = false := by
  cases hv : hasSub pat ys with
  | false => rfl
  | true => simp [hasSub_append_right pat xs ys hv] at h

theorem hasSub_mono_pat_false (pat q s : List Char)
    (h : hasSub pat s = false) : hasSub (pat ++ q) s = false := by
  cases hv : hasSub (pat ++ q) s with
  | false => rfl
  | true => simp [hasSub_mono_pat pat q s hv] at h

theorem replGo_pat_append (pat rep t : List Char) (hpat : pat ≠ []) :
    ∀ f, (pat ++ t).length ≤ f →
      replGo pat rep f (pat ++ t) = rep ++ replGo pat rep t.length t := by
  intro f hf
  cases pat with
  | nil => exact absurd rfl hpat
  | cons p pat' =>
    cases f with
    | zero => simp at hf
    | succ f =>
      have hpre : (p :: pat').isPrefixOf ((p :: pat') ++ t) = true := by
        rw [List.isPrefixOf_iff_prefix]; exact List.prefix_append _ _
      simp only [List.cons_append, replGo]
      rw [if_pos ⟨by simp, by simpa using hpre⟩]
      congr 1
      simp only [List.append_eq, List.length_cons, Nat.add_sub_cancel]
      rw [List.drop_left pat' t]
      apply replGo_fuel
      · simp only [List.cons_append, List.length_cons, List.length_append] at hf
        omega
      · omega

theorem replGo_sep (pat rep : List Char) (c : Char)
    (hpat : pat ≠ []) (hc : c ∉ pat) :
    ∀ (n : Nat) (xs : List Char), xs.length ≤ n →
      ∀ (f : Nat) (ys : List Char), (xs ++ c :: ys).length ≤ f →
        replGo pat rep f (xs ++ c :: ys) =
          replGo pat rep xs.length xs ++ c :: replGo pat rep ys.length ys := by
  intro n
  induction n with
  | zero =>
    intro xs hxs f ys hf
    have hxe : xs = [] := List.length_eq_zero.mp (Nat.le_zero.mp hxs)
    subst hxe
    cases f with
    | zero => simp at hf
    | succ f =>
      have hnp : ¬(pat ≠ [] ∧ pat.isPrefixOf (c :: ys) = true) := by
        rintro ⟨-, hp⟩
        rw [List.isPrefixOf_iff_prefix] at hp
        cases pat with
        | nil => exact hpat rfl
        | cons q pat' =>
          obtain ⟨t, ht⟩ := hp
          simp only [List.cons_append, List.cons.injEq] at ht
          exact hc (ht.1 ▸ List.mem_cons_self q pat')
      simp only [List.nil_append, replGo, List.length_nil]
      rw [if_neg hnp]
      congr 1
      apply replGo_fuel
      · simp only [List.nil_append, List.length_cons] at hf; omega
      · omega
  | succ n ih =>
    intro xs hxs f ys hf
    cases xs with
    | nil =>
      exact ih [] (by simp) f ys hf
    | cons a xs' =>
      cases f with
      | zero => simp at hf
      | succ f =>
        by_cases hp : pat.isPrefixOf (a :: xs' ++ c :: ys) = true
        · -- the match lies entirely inside `a :: xs'`
          have hply : pat.length ≤ (a :: xs').length := by
            by_contra hgt
            push_neg at hgt
            have h1 : (a :: xs') ++ [c] <+: (a :: xs') ++ c :: ys := by
              have he : (a :: xs') ++ c :: ys = ((a :: xs') ++ [c]) ++ ys := by simp
              rw [he]; exact List.prefix_append _ _
            rw [List.isPrefixOf_iff_prefix] at hp
            have h2 : (a :: xs') ++ [c] <+: pat :=
              List.prefix_of_prefix_length_le h1 (by simpa using hp) (by simpa using hgt)
            exact hc (h2.subset (by simp))
          have hppre : pat <+: (a :: xs') := by
            rw [List.isPrefixOf_iff_prefix] at hp
            exact List.prefix_of_prefix_length_le (by simpa using hp)
              (by simpa using List.prefix_append (a :: xs') (c :: ys)) hply
          have hlen1 : pat.length - 1 ≤ xs'.length := by
            simp only [List.length_cons] at hply; omega
          have hxpre : pat.isPrefixOf (a :: xs') = true := by
            rw [List.isPrefixOf_iff_prefix]; exact hppre
          simp only [List.cons_append, replGo]
          rw [if_pos ⟨hpat, by simpa using hp⟩, if_pos ⟨hpat, hxpre⟩]
          simp only [List.append_eq]
          rw [List.drop_append_of_le_length hlen1]
          rw [ih (xs'.drop (pat.length - 1))
            (by simp only [List.length_drop]; simp only [List.length_cons] at hxs; omega)
            f ys
            (by simp only [List.length_append, List.length_drop, List.length_cons] at hf ⊢; omega)]
          rw [show replGo pat rep xs'.length (xs'.drop (pat.length - 1)) =
              replGo pat rep (xs'.drop (pat.length - 1)).length (xs'.drop (pat.length - 1)) from
            replGo_fuel pat rep _ _ _ (by simp only [List.length_drop]; omega)
              (by simp only [List.length_drop]; omega)]
          simp [List.append_assoc]
        · have hxp : pat.isPrefixOf (a :: xs') ≠ true := by
            intro hx
            apply hp
            rw [List.isPrefixOf_iff_prefix] at hx ⊢
            exact (by simpa using hx.trans (List.prefix_append (a :: xs') (c :: ys)) :
              pat <+: a :: xs' ++ c :: ys)
          simp only [List.cons_append, replGo]
          rw [if_neg (by rintro ⟨-, h⟩; exact hp (by simpa using h)),
            if_neg (by rintro ⟨-, h⟩; exact hxp h)]
          simp only [List.append_eq]
          rw [ih xs' (by simp only [List.length_cons] at hxs; omega) f ys
            (by simp only [List.length_append, List.length_cons] at hf ⊢; omega)]
          simp [List.cons_append]

/-! ## Helper lemmas: `pyStrip` -/

theorem lstrip_cons_space {c : Char} (s : List Char) (h : isPySpace c = true) :
    lstrip (c :: s) = lstrip s := by
  simp [lstrip, List.dropWhile_cons, h]

theorem lstrip_cons_nonspace {c : Char} (s : List Char) (h : isPySpace c = false) :
    lstrip (c :: s) = c :: s := by
  simp [lstrip, List.dropWhile_cons, h]

theorem rstrip_append_space {c : Char} (s : List Char) (h : isPySpace c = true) :
    rstrip (s ++ [c]) = rstrip s := by
  simp [rstrip, List.reverse_append, List.dropWhile_cons, h]

theorem rstrip_append_nonspace {c : Char} (s : List Char) (h : isPySpace c = false) :
    rstrip (s ++ [c]) = s ++ [c] := by
  simp [rstrip, List.reverse_append, List.dropWhile_cons, h]

theorem lstrip_append (s t : List Char) :
    lstrip (s ++ t) = if lstrip s = [] then lstrip t else lstrip s ++ t := by
  induction s with
  | nil => simp [lstrip]
  | cons a s ih =>
    cases ha : isPySpace a with
    | true =>
      rw [List.cons_append, lstrip_cons_space _ ha, lstrip_cons_space _ ha, ih]
    | false =>
      rw [List.cons_append, lstrip_cons_nonspace _ ha, lstrip_cons_nonspace _ ha]
      simp

theorem pyStrip_cons_space {c : Char} (s : List Char) (h : isPySpace c = true) :
    pyStrip (c :: s) = pyStrip s := by
  rw [pyStrip, pyStrip, lstrip_cons_space _ h]

theorem pyStrip_append_space {c : Char} (s : List Char) (h : isPySpace c = true) :
    pyStrip (s ++ [c]) = pyStrip s := by
  rw [pyStrip, pyStrip, lstrip_append]
  by_cases he : lstrip s = []
  · rw [if_pos he, he, lstrip_cons_space _ h]
    rfl
  · rw [if_neg he, rstrip_append_space _ h]

theorem lstrip_idem (s : List Char) : lstrip (lstrip s) = lstrip s := by
  induction s with
  | nil => rfl
  | cons a s ih =>
    cases ha : isPySpace a with
    | true => rw [lstrip_cons_space _ ha, ih]
    | false => rw [lstrip_cons_nonspace _ ha, lstrip_cons_nonspace _ ha]

theorem rstrip_idem (s : List Char) : rstrip (rstrip s) = rstrip s := by
  have h : (rstrip s).reverse = s.reverse.dropWhile isPySpace := by
    rw [rstrip, List.reverse_reverse]
  rw [rstrip, h]
  have := lstrip_idem s.reverse
  simp only [lstrip] at this
  rw [this, ← h, List.reverse_reverse]

theorem rstrip_prefix (s : List Char) : rstrip s <+: s := by
  conv_rhs => rw [← List.reverse_reverse s]
  exact List.reverse_prefix.mpr (List.dropWhile_suffix _)

theorem lstrip_suffix (s : List Char) : lstrip s <:+ s :=
  List.dropWhile_suffix _

theorem lstrip_of_rstrip_of_lstripped (u : List Char) (h : lstrip u = u) :
    lstrip (rstrip u) = rstrip u := by
  rcases hpre : rstrip u with _ | ⟨a, t⟩
  · rfl
  · have hp := rstrip_prefix u
    rw [hpre] at hp
    obtain ⟨t', ht'⟩ := hp
    have ha : isPySpace a = false := by
      by_contra hsp
      rw [Bool.not_eq_false] at hsp
      have : lstrip u = lstrip (t ++ t') := by
        rw [← ht', List.cons_append, lstrip_cons_space _ hsp]
      have hlen := congrArg List.length (h ▸ this)
      have h1 : (lstrip (t ++ t')).length ≤ (t ++ t').length :=
        List.IsSuffix.length_le (lstrip_suffix _)
      rw [← ht'] at hlen
      simp only [List.length_cons, List.length_append] at hlen h1
      omega
    exact lstrip_cons_nonspace t ha

theorem pyStrip_idem (s : List Char) : pyStrip (pyStrip s) = pyStrip s := by
  rw [pyStrip, pyStrip, lstrip_of_rstrip_of_lstripped (lstrip s) (lstrip_idem s),
    rstrip_idem]

theorem hasSub_lstrip_false (pat s : List Char) (h : hasSub pat s = false) :
    hasSub pat (lstrip s) = false := by
  obtain ⟨t, ht⟩ := lstrip_suffix s
  have h2 : hasSub pat (t ++ lstrip s) = false := by rw [ht]; exact h
  exact hasSub_append_right_false pat t (lstrip s) h2

theorem hasSub_rstrip_false (pat s : List Char) (h : hasSub pat s = false) :
    hasSub pat (rstrip s) = false := by
  obtain ⟨t, ht⟩ := rstrip_prefix s
  have h2 : hasSub pat (rstrip s ++ t) = false := by rw [ht]; exact h
  exact hasSub_append_left_false pat (rstrip s) t h2

theorem hasSub_pyStrip_false (pat s : List Char) (h : hasSub pat s = false) :
    hasSub pat (pyStrip s) = false :=
  hasSub_rstrip_false pat _ (hasSub_lstrip_false pat s h)

/-! ## Helper lemmas: `cleanGemini` -/

theorem pyReplace_of_hasSub_false (s pat rep : List Char)
    (h : hasSub pat s = false) : pyReplace s pat rep = s :=
  replGo_of_hasSub_false pat rep s h s.length

/-- On a fence-free text the two `replace` calls do nothing: cleaning is just
`strip`. -/
theorem cleanGemini_fence_free (p : List Char)
    (h : hasSub "```".toList p = false) : cleanGemini p = pyStrip p := by
  have h1 : hasSub "```".toList (pyStrip p) = false := hasSub_pyStrip_false _ p h
  have h2 : hasSub "```json".toList (pyStrip p) = false := by
    have := hasSub_mono_pat_false "```".toList "json".toList (pyStrip p) h1
    exact this
  rw [cleanGemini, pyReplace_of_hasSub_false _ _ _ h2,
    pyReplace_of_hasSub_false _ _ _ h1, pyStrip_idem]

theorem pyStrip_wrapJson (p : List Char) : pyStrip (wrapJson p) = wrapJson p := by
  have hw : wrapJson p = '`' :: ("``json\n".toList ++ (p ++ "\n```".toList)) := by
    simp [wrapJson, List.append_assoc]
  have hw2 : wrapJson p = ("```json\n".toList ++ (p ++ "\n``".toList)) ++ ['`'] := by
    simp [wrapJson, List.append_assoc]
  rw [pyStrip]
  rw [hw, lstrip_cons_nonspace _ (by decide), ← hw, hw2,
    rstrip_append_nonspace _ (by decide), ← hw2]

/-- Cleaning a fence-wrapped payload whose payload is fence-free yields the
stripped payload. -/
theorem cleanGemini_wrapJson (p : List Char)
    (h : hasSub "```".toList p = false) :
    cleanGemini (wrapJson p) = pyStrip p := by
  have hpat1 : hasSub "```json".toList p = false :=
    hasSub_mono_pat_false "```".toList "json".toList p h
  have e1 : wrapJson p =
      "```json".toList ++ ('\n' :: (p ++ '\n' :: "```".toList)) := by
    simp [wrapJson, List.append_assoc]
  -- first replace: the leading marker is removed, nothing else matches
  have step1 : pyReplace (wrapJson p) "```json".toList [] =
      '\n' :: (p ++ '\n' :: "```".toList) := by
    rw [pyReplace, e1]
    rw [replGo_pat_append _ _ _ (by decide) _ (le_refl _)]
    rw [show ('\n' :: (p ++ '\n' :: "```".toList)) =
      ([] : List Char) ++ '\n' :: (p ++ '\n' :: "```".toList) from rfl]
    rw [replGo_sep "```json".toList [] '\n' (by decide) (by decide)
      0 [] (le_refl _) _ (p ++ '\n' :: "```".toList) (le_refl _)]
    rw [replGo_sep "```json".toList [] '\n' (by decide) (by decide)
      p.length p (le_refl _) _ "```".toList (le_refl _)]
    rw [replGo_of_hasSub_false _ _ _ hpat1]
    have hfe : replGo "```json".toList [] ("```".toList).length "```".toList =
        "```".toList := by decide
    rw [hfe]
    rfl
  -- second replace: the trailing marker is removed, nothing else matches
  have step2 : pyReplace ('\n' :: (p ++ '\n' :: "```".toList)) "```".toList [] =
      '\n' :: (p ++ ['\n']) := by
    rw [pyReplace]
    rw [show ('\n' :: (p ++ '\n' :: "```".toList)) =
      ([] : List Char) ++ '\n' :: (p ++ '\n' :: "```".toList) from rfl]
    rw [replGo_sep "```".toList [] '\n' (by decide) (by decide)
      0 [] (le_refl _) _ (p ++ '\n' :: "```".toList) (le_refl _)]
    rw [replGo_sep "```".toList [] '\n' (by decide) (by decide)
      p.length p (le_refl _) _ "```".toList (le_refl _)]
    rw [replGo_of_hasSub_false _ _ _ h]
    have hfe : replGo "```".toList [] ("```".toList).length "```".toList =
        [] := by decide
    rw [hfe]
    rfl
  rw [cleanGemini, pyStrip_wrapJson, step1, step2,
    pyStrip_cons_space _ (by decide), pyStrip_append_space _ (by decide)]

/-! ## Helper lemmas: `splitNL` / `joinNL` / `jinaPost` -/

theorem splitNL_ne_nil (s : List Char) : splitNL s ≠ [] := by
  cases s with
  | nil => simp [splitNL]
  | cons c rest =>
    simp only [splitNL]
    by_cases hc : c = '\n'
    · simp [hc]
    · rw [if_neg hc]
      rcases h : splitNL rest with _ | ⟨l, ls⟩ <;> simp

theorem joinNL_splitNL (s : List Char) : joinNL (splitNL s) = s := by
  induction s with
  | nil => rfl
  | cons c rest ih =>
    by_cases hc : c = '\n'
    · subst hc
      have hsp : splitNL ('\n' :: rest) = [] :: splitNL rest := by simp [splitNL]
      rw [hsp]
      rcases h : splitNL rest with _ | ⟨l, ls⟩
      · exact absurd h (splitNL_ne_nil rest)
      · rw [h] at ih
        have he : joinNL ([] :: l :: ls) = [] ++ '\n' :: joinNL (l :: ls) := rfl
        rw [he, ih, List.nil_append]
    · simp only [splitNL, if_neg hc]
      rcases h : splitNL rest with _ | ⟨l, ls⟩
      · exact absurd h (splitNL_ne_nil rest)
      · rw [h] at ih
        cases ls with
        | nil =>
          have he : joinNL [c :: l] = c :: l := rfl
          have he2 : joinNL [l] = l := rfl
          rw [he2] at ih
          rw [he, ih]
        | cons l2 ls2 =>
          have he : joinNL ((c :: l) :: l2 :: ls2) =
              (c :: l) ++ '\n' :: joinNL (l2 :: ls2) := rfl
          have he2 : joinNL (l :: l2 :: ls2) = l ++ '\n' :: joinNL (l2 :: ls2) := rfl
          rw [he2] at ih
          rw [he, ← ih]
          simp

theorem joinNL_eq_joinBy (ls : List (List Char)) : joinNL ls = joinBy ['\n'] ls := by
  induction ls with
  | nil => rfl
  | cons l ls ih =>
    cases ls with
    | nil => rfl
    | cons l2 ls2 =>
      simp only [joinNL, joinBy] at ih ⊢
      rw [ih]
      simp

theorem joinNL_suffix (pre ls : List (List Char)) (h : ls ≠ []) :
    joinNL ls <:+ joinNL (pre ++ ls) := by
  induction pre with
  | nil => exact List.suffix_refl _
  | cons a pre' ih =>
    rcases hpl : pre' ++ ls with _ | ⟨l, t⟩
    · exact absurd (List.append_eq_nil.mp hpl).2 h
    · have : joinNL (a :: (pre' ++ ls)) = a ++ '\n' :: joinNL (pre' ++ ls) := by
        rw [hpl]; rfl
      rw [List.cons_append, this]
      have h2 : joinNL (pre' ++ ls) <:+ a ++ '\n' :: joinNL (pre' ++ ls) := by
        have : a ++ '\n' :: joinNL (pre' ++ ls) = (a ++ ['\n']) ++ joinNL (pre' ++ ls) := by
          simp
        rw [this]
        exact List.suffix_append _ _
      exact ih.trans h2

/-- `headingSuffix` agrees with the index of the first heading line. -/
theorem headingSuffix_spec (ll : List (List Char)) :
    (specFirstHead ll = Option.none → headingSuffix ll = Option.none) ∧
    (∀ i, specFirstHead ll = some i →
      headingSuffix ll = some (ll.drop i) ∧
      (∃ hd tl, ll.drop i = hd :: tl ∧ isHeadLine hd = true) ∧
      (∀ l ∈ ll.take i, isHeadLine l = false)) := by
  induction ll with
  | nil => exact ⟨fun _ => rfl, fun i h => by simp [specFirstHead] at h⟩
  | cons l ls ih =>
    by_cases hl : isHeadLine l = true
    · refine ⟨fun h => ?_, fun i h => ?_⟩
      · simp [specFirstHead, hl] at h
      · simp only [specFirstHead, hl, if_true] at h
        obtain rfl : (0 : Nat) = i := by simpa using h
        refine ⟨by simp [headingSuffix, hl], ⟨l, ls, by simp, hl⟩, by simp⟩
    · have hl' : isHeadLine l = false := by simpa using hl
      refine ⟨fun h => ?_, fun i h => ?_⟩
      · simp only [specFirstHead, hl', if_neg] at h
        · simp only [headingSuffix, hl', if_neg, Bool.false_eq_true, if_false]
          apply ih.1
          rcases he : specFirstHead ls with _ | j
          · rfl
          · rw [he] at h; simp at h
      · simp only [specFirstHead, hl', Bool.false_eq_true, if_false] at h
        obtain ⟨j, hj, rfl⟩ := Option.map_eq_some'.mp h
        obtain ⟨h1, h2, h3⟩ := ih.2 j hj
        refine ⟨?_, ?_, ?_⟩
        · simp only [headingSuffix, hl', Bool.false_eq_true, if_false]
          rw [h1]; rfl
        · simpa using h2
        · intro x hx
          simp only [List.take_succ_cons, List.mem_cons] at hx
          rcases hx with rfl | hx
          · exact hl'
          · exact h3 x hx

/-! ## Helper lemmas: `nlToBr` -/

theorem replGo_nl (br : List Char) :
    ∀ (text : List Char) (f : Nat), text.length ≤ f →
      replGo ['\n'] br f text = joinBy br (splitNL text) := by
  intro text
  induction text with
  | nil => intro f _; rw [replGo_nil]; rfl
  | cons c rest ih =>
    intro f hf
    cases f with
    | zero => simp at hf
    | succ f =>
      by_cases hc : c = '\n'
      · subst hc
        have hpre : ['\n'].isPrefixOf ('\n' :: rest) = true := by
          rw [List.isPrefixOf_iff_prefix]
          exact ⟨rest, rfl⟩
        simp only [replGo]
        rw [if_pos ⟨by simp, hpre⟩]
        simp only [List.length_singleton, Nat.sub_self, List.drop_zero]
        rw [ih f (by simp only [List.length_cons] at hf; omega)]
        have hsp : splitNL ('\n' :: rest) = [] :: splitNL rest := by simp [splitNL]
        rw [hsp]
        rcases h : splitNL rest with _ | ⟨l, ls⟩
        · exact absurd h (splitNL_ne_nil rest)
        · have he : joinBy br ([] :: l :: ls) = [] ++ br ++ joinBy br (l :: ls) := rfl
          rw [he]
          simp
      · have hpre : ['\n'].isPrefixOf (c :: rest) = false := by
          rw [Bool.eq_false_iff]
          intro hx
          rw [List.isPrefixOf_iff_prefix] at hx
          obtain ⟨t, ht⟩ := hx
          simp only [List.cons_append, List.nil_append, List.cons.injEq] at ht
          exact hc ht.1.symm
        simp only [replGo]
        rw [if_neg (by rintro ⟨-, h⟩; rw [hpre] at h; exact Bool.false_ne_true h)]
        rw [ih f (by simp only [List.length_cons] at hf; omega)]
        simp only [splitNL, if_neg hc]
        rcases h : splitNL rest with _ | ⟨l, ls⟩
        · exact absurd h (splitNL_ne_nil rest)
        · cases ls with
          | nil => rfl
          | cons l2 ls2 =>
            have he : joinBy br ((c :: l) :: l2 :: ls2) =
                (c :: l) ++ br ++ joinBy br (l2 :: ls2) := rfl
            have he2 : joinBy br (l :: l2 :: ls2) = l ++ br ++ joinBy br (l2 :: ls2) := rfl
            rw [he, he2]
            simp

/-- `replace('\n', '<br/>')` is exactly the `<br/>`-join of the `'\n'`-split. -/
theorem nlToBr_eq_joinBy (text : List Char) :
    nlToBr text = joinBy "<br/>".toList (splitNL text) :=
  replGo_nl _ text text.length (le_refl _)

theorem splitNL_no_nl (s : List Char) : ∀ l ∈ splitNL s, '\n' ∉ l := by
  induction s with
  | nil => intro l hl; simp [splitNL] at hl; simp [hl]
  | cons c rest ih =>
    intro l hl
    by_cases hc : c = '\n'
    · subst hc
      have hsp : splitNL ('\n' :: rest) = [] :: splitNL rest := by simp [splitNL]
      rw [hsp] at hl
      rcases List.mem_cons.mp hl with rfl | hl
      · simp
      · exact ih l hl
    · simp only [splitNL, if_neg hc] at hl
      rcases h : splitNL rest with _ | ⟨l0, ls⟩
      · exact absurd h (splitNL_ne_nil rest)
      · rw [h] at hl
        rcases List.mem_cons.mp hl with rfl | hl
        · intro hx
          rcases List.mem_cons.mp hx with rfl | hx
          · exact hc rfl
          · exact ih l0 (h ▸ List.mem_cons_self l0 ls) hx
        · exact ih l (h ▸ List.mem_cons_of_mem l0 hl)

theorem mem_joinBy (sep : List Char) (a : Char) :
    ∀ ls, a ∈ joinBy sep ls → (∃ l ∈ ls, a ∈ l) ∨ a ∈ sep := by
  intro ls
  induction ls with
  | nil => intro h; simp [joinBy] at h
  | cons l ls ih =>
    intro h
    cases ls with
    | nil => exact Or.inl ⟨l, by simp, h⟩
    | cons l2 ls2 =>
      have he : joinBy sep (l :: l2 :: ls2) = l ++ sep ++ joinBy sep (l2 :: ls2) := rfl
      rw [he] at h
      rcases List.mem_append.mp h with h1 | h1
      · rcases List.mem_append.mp h1 with h2 | h2
        · exact Or.inl ⟨l, by simp, h2⟩
        · exact Or.inr h2
      · rcases ih h1 with ⟨l', hl', ha⟩ | hs
        · exact Or.inl ⟨l', List.mem_cons_of_mem l hl', ha⟩
        · exact Or.inr hs

/-- After the replacement no newline remains in the text. -/
theorem nl_not_mem_nlToBr (text : List Char) : '\n' ∉ nlToBr text := by
  rw [nlToBr_eq_joinBy]
  intro h
  rcases mem_joinBy _ _ _ h with ⟨l, hl, ha⟩ | hs
  · exact splitNL_no_nl text l hl ha
  · simp at hs

/-! ## Helper lemmas: URL deduplication and the run -/

theorem mem_foldl_pySetAdd (l : List String) :
    ∀ (s : List String) (u : String), u ∈ l.foldl pySetAdd s ↔ u ∈ s ∨ u ∈ l := by
  induction l with
  | nil => intro s u; simp
  | cons a l ih =>
    intro s u
    rw [List.foldl_cons, ih]
    unfold pySetAdd
    by_cases ha : a ∈ s
    · rw [if_pos ha]
      constructor
      · rintro (h | h)
        · exact Or.inl h
        · exact Or.inr (List.mem_cons_of_mem a h)
      · rintro (h | h)
        · exact Or.inl h
        · rcases List.mem_cons.mp h with rfl | h
          · exact Or.inl ha
          · exact Or.inr h
    · rw [if_neg ha]
      simp only [List.mem_append, List.mem_singleton, List.mem_cons]
      tauto

theorem nodup_foldl_pySetAdd (l : List String) :
    ∀ (s : List String), s.Nodup → (l.foldl pySetAdd s).Nodup := by
  induction l with
  | nil => intro s hs; exact hs
  | cons a l ih =>
    intro s hs
    rw [List.foldl_cons]
    apply ih
    unfold pySetAdd
    by_cases ha : a ∈ s
    · rw [if_pos ha]; exact hs
    · rw [if_neg ha]
      simp [List.nodup_append, hs, ha]

theorem mem_collect_aux (o : Oracles) (qs : List String) :
    ∀ (s : List String) (u : String),
      u ∈ qs.foldl (fun s q => (search_with_tavily o q).foldl pySetAdd s) s ↔
        u ∈ s ∨ ∃ q ∈ qs, u ∈ search_with_tavily o q := by
  induction qs with
  | nil => intro s u; simp
  | cons q qs ih =>
    intro s u
    rw [List.foldl_cons, ih, mem_foldl_pySetAdd]
    simp only [List.mem_cons]
    constructor
    · rintro ((h | h) | ⟨q', hq', h⟩)
      · exact Or.inl h
      · exact Or.inr ⟨q, Or.inl rfl, h⟩
      · exact Or.inr ⟨q', Or.inr hq', h⟩
    · rintro (h | ⟨q', (rfl | hq'), h⟩)
      · exact Or.inl (Or.inl h)
      · exact Or.inl (Or.inr h)
      · exact Or.inr ⟨q', hq', h⟩

theorem mem_collectUrls (o : Oracles) (u : String) :
    u ∈ collectUrls o ↔ ∃ q ∈ SEARCH_QUERIES, u ∈ search_with_tavily o q := by
  rw [collectUrls, mem_collect_aux]
  simp

theorem nodup_collect_aux (o : Oracles) (qs : List String) :
    ∀ s : List String, s.Nodup →
      (qs.foldl (fun s q => (search_with_tavily o q).foldl pySetAdd s) s).Nodup := by
  induction qs with
  | nil => intro s hs; exact hs
  | cons q qs ih =>
    intro s hs
    rw [List.foldl_cons]
    exact ih _ (nodup_foldl_pySetAdd _ _ hs)

theorem nodup_collectUrls (o : Oracles) : (collectUrls o).Nodup :=
  nodup_collect_aux o SEARCH_QUERIES [] List.nodup_nil

theorem processURL_fetchCalls (o : Oracles) (u : String) :
    (processURL o u).fetchCalls = [u] := by
  rcases hj : get_article_content_from_jina o u with _ | text
  · simp [processURL, hj]
  · rcases ha : analyze_with_gemini o text with _ | r
    · by_cases ht : text = [] <;> simp [processURL, hj, ht, ha]
    · by_cases ht : text = []
      · simp [processURL, hj, ht]
      · by_cases hi : (pyTruthy r && pyTruthy (pyGet r "is_important")) = true <;>
          simp [processURL, hj, ht, ha, hi]

theorem processURL_article_link (o : Oracles) (u : String) (a : Article)
    (h : (processURL o u).article = some a) : a.link = u := by
  rcases hj : get_article_content_from_jina o u with _ | text
  · simp [processURL, hj] at h
  · rcases ha : analyze_with_gemini o text with _ | r
    · by_cases ht : text = [] <;> simp [processURL, hj, ht, ha] at h
    · by_cases ht : text = []
      · simp [processURL, hj, ht] at h
      · by_cases hi : (pyTruthy r && pyTruthy (pyGet r "is_important")) = true
        · simp only [processURL, hj, ht, ha, hi] at h
          simp at h
          rw [← h]
          rfl
        · simp [processURL, hj, ht, ha, hi] at h

theorem flatten_fetchCalls (o : Oracles) (l : List String) :
    ((l.map (processURL o)).map (fun st => st.fetchCalls)).flatten = l := by
  induction l with
  | nil => rfl
  | cons v l ih =>
    simp only [List.map_cons, List.flatten_cons, processURL_fetchCalls,
      List.singleton_append]
    rw [ih]

theorem runMain_extractorCalls (o : Oracles) :
    (runMain o).extractorCalls = collectUrls o := by
  simp only [runMain]
  exact flatten_fetchCalls o _

theorem runMain_articles (o : Oracles) :
    (runMain o).articles = (collectUrls o).filterMap (fun v => (processURL o v).article) := by
  rw [runMain]
  simp only [List.filterMap_map]
  rfl

theorem feedItems_runMain (o : Oracles) :
    feedItems (runMain o) = (runMain o).articles.map mkItem := by
  rw [feedItems, runMain]
  by_cases he : ((collectUrls o).map (processURL o)).filterMap (fun st => st.article) = []
  · simp only [he, List.isEmpty_nil, if_true]
    simp [he]
  · rw [← List.isEmpty_iff] at he
    simp only [Bool.not_eq_true] at he
    simp only [he, Bool.false_eq_true, if_false]
    simp

theorem processURL_fetch_none (o : Oracles) (u : String)
    (hf : o.fetch u = Option.none) :
    processURL o u = ⟨[u], [], Option.none⟩ := by
  simp [processURL, get_article_content_from_jina, hf]

theorem processURL_empty_text (o : Oracles) (u : String) (raw : List Char)
    (hf : o.fetch u = some raw) (he : jinaPost raw = []) :
    processURL o u = ⟨[u], [], Option.none⟩ := by
  simp [processURL, get_article_content_from_jina, hf, he]

theorem processURL_analyze_none (o : Oracles) (u : String) (raw : List Char)
    (hf : o.fetch u = some raw) (ht : jinaPost raw ≠ [])
    (ha : analyze_with_gemini o (jinaPost raw) = Option.none) :
    processURL o u = ⟨[u], [jinaPost raw], Option.none⟩ := by
  simp [processURL, get_article_content_from_jina, hf, ht, ha]

theorem processURL_analyze_some (o : Oracles) (u : String) (raw : List Char)
    (r : PyVal)
    (hf : o.fetch u = some raw) (ht : jinaPost raw ≠ [])
    (ha : analyze_with_gemini o (jinaPost raw) = some r) :
    processURL o u = ⟨[u], [jinaPost raw],
      if pyTruthy r && pyTruthy (pyGet r "is_important") then
        some (mkArticle r u (jinaPost raw))
      else Option.none⟩ := by
  by_cases hi : (pyTruthy r && pyTruthy (pyGet r "is_important")) = true <;>
    simp [processURL, get_article_content_from_jina, hf, ht, ha, hi]

theorem countP_filterMap_article (o : Oracles) (u : String) :
    ∀ l : List String, l.Nodup → u ∈ l →
      (l.filterMap (fun v => (processURL o v).article)).countP
          (fun a => a.link == u) =
        if ((processURL o u).article).isSome then 1 else 0 := by
  intro l
  induction l with
  | nil => intro _ hu; simp at hu
  | cons v l ih =>
    intro hnd hu
    have hv : v ∉ l := (List.nodup_cons.mp hnd).1
    have hnd' : l.Nodup := (List.nodup_cons.mp hnd).2
    rcases List.mem_cons.mp hu with rfl | hul
    · -- the head is `u`; no later element can contribute a matching link
      have htail : (l.filterMap (fun v => (processURL o v).article)).countP
          (fun a => a.link == u) = 0 := by
        rw [List.countP_eq_zero]
        intro a ha
        obtain ⟨v', hv', ha'⟩ := List.mem_filterMap.mp ha
        have : a.link = v' := processURL_article_link o v' a ha'
        simp only [this, beq_iff_eq]
        intro he
        exact hv (he ▸ hv')
      rcases hart : (processURL o u).article with _ | a
      · rw [@List.filterMap_cons_none _ _ (fun v => (processURL o v).article) u l hart,
          htail]
        rfl
      · rw [@List.filterMap_cons_some _ _ (fun v => (processURL o v).article) u l a hart]
        have hla : a.link = u := processURL_article_link o u a hart
        rw [List.countP_cons, htail]
        simp [hla]
    · have hne : v ≠ u := fun he => hv (he ▸ hul)
      rcases hart : (processURL o v).article with _ | a
      · rw [@List.filterMap_cons_none _ _ (fun v => (processURL o v).article) v l hart]
        exact ih hnd' hul
      · rw [@List.filterMap_cons_some _ _ (fun v => (processURL o v).article) v l a hart]
        have hla : a.link = v := processURL_article_link o v a hart
        rw [List.countP_cons]
        have hfalse : (a.link == u) = false := by
          rw [hla, beq_eq_false_iff_ne]
          exact hne
        rw [hfalse]
        simp only [Bool.false_eq_true, if_false, Nat.add_zero]
        exact ih hnd' hul

/-! ## Claim theorems -/

/-- C1: for every run, the number of Content Extractor invocations equals the
cardinality of the set-union (exact string equality) of all per-query search
result lists — never the raw sum when the lists overlap — and no URL is
extracted twice. -/
theorem c1_dedup_extraction (o : Oracles) :
    (runMain o).extractorCalls.length =
      ((SEARCH_QUERIES.map (search_with_tavily o)).flatten.toFinset).card ∧
    (runMain o).extractorCalls.Nodup := by
  constructor
  · rw [runMain_extractorCalls]
    have hset : (collectUrls o).toFinset =
        ((SEARCH_QUERIES.map (search_with_tavily o)).flatten).toFinset := by
      ext u
      simp only [List.mem_toFinset, List.mem_flatten, List.mem_map]
      rw [mem_collectUrls]
      constructor
      · rintro ⟨q, hq, hu⟩
        exact ⟨_, ⟨q, hq, rfl⟩, hu⟩
      · rintro ⟨_, ⟨q, hq, rfl⟩, hu⟩
        exact ⟨q, hq, hu⟩
    rw [← hset]
    exact (List.toFinset_card_of_nodup (nodup_collectUrls o)).symm
  · rw [runMain_extractorCalls]
    exact nodup_collectUrls o

/-- C2: every run writes the feed document to the fixed path exactly once at
the end, with the fixed channel title, link and description, and with zero
items when no article was accumulated. -/
theorem c2_feed_always_written (o : Oracles) :
    RSS_FILE_NAME = "feed.xml" ∧
    ∃ f : Feed, (runMain o).writes = [(RSS_FILE_NAME, f)] ∧
      f.title = RSS_FEED_TITLE ∧ f.link = RSS_FEED_LINK ∧
      f.description = RSS_FEED_DESCRIPTION ∧
      ((runMain o).articles = [] → f.items = []) := by
  refine ⟨rfl, ?_⟩
  by_cases he : (((collectUrls o).map (processURL o)).filterMap
      (fun st => st.article)).isEmpty
  · refine ⟨⟨RSS_FEED_TITLE, RSS_FEED_LINK, RSS_FEED_DESCRIPTION, []⟩, ?_,
      rfl, rfl, rfl, fun _ => rfl⟩
    simp only [runMain, he, if_true]
  · have he' : (((collectUrls o).map (processURL o)).filterMap
        (fun st => st.article)).isEmpty = false := by
      simpa using he
    refine ⟨⟨RSS_FEED_TITLE, RSS_FEED_LINK, RSS_FEED_DESCRIPTION,
      ((((collectUrls o).map (processURL o)).filterMap
        (fun st => st.article)).map mkItem)⟩, ?_, rfl, rfl, rfl, ?_⟩
    · simp only [runMain, he', Bool.false_eq_true, if_false]
    · intro hempty
      exfalso
      simp only [runMain] at hempty
      rw [List.isEmpty_iff] at he
      exact he hempty

/-- Witness for C2: a run in which every external call fails still writes
the feed file once, with the fixed metadata and zero items. -/
theorem c2_feed_always_written_witness :
    (runMain oAllFail).writes =
      [(RSS_FILE_NAME,
        { title := RSS_FEED_TITLE, link := RSS_FEED_LINK,
          description := RSS_FEED_DESCRIPTION, items := [] })] := by
  obtain ⟨-, f, hw, ht, hl, hd, hi⟩ := c2_feed_always_written oAllFail
  have hart : (runMain oAllFail).articles = [] := rfl
  rcases f with ⟨ft, fl, fd, fi⟩
  dsimp only at ht hl hd
  have hfi : fi = [] := hi hart
  subst ht; subst hl; subst hd; subst hfi
  exact hw

/-- C3: for a successfully extracted article, an entry appears in the emitted
feed iff the parsed verdict is marked important: `is_important: false` yields
no feed item for that URL; `is_important: true` yields exactly one, whose
title and category come from the verdict (with placeholder defaults), whose
link is the source URL, and whose category is rendered into the item
description. -/
theorem c3_verdict_filtering (o : Oracles) (u : String) (raw : List Char)
    (kvs : List (String × PyVal))
    (hu : u ∈ collectUrls o)
    (hf : o.fetch u = some raw)
    (ht : jinaPost raw ≠ [])
    (ha : analyze_with_gemini o (jinaPost raw) = some (.dict kvs)) :
    (pyGet (.dict kvs) "is_important" = .bool false →
      (feedItems (runMain o)).countP (fun it => it.link == u) = 0) ∧
    (pyGet (.dict kvs) "is_important" = .bool true →
      (feedItems (runMain o)).countP (fun it => it.link == u) = 1 ∧
      ∀ it ∈ feedItems (runMain o), it.link = u →
        it.title = pyGetDef (.dict kvs) "title" (.str "No Title") ∧
        it.description =
          catSeg (pyGetDef (.dict kvs) "category" (.str "N/A")) ++
            nlToBr (jinaPost raw)) := by
  have hcount : (feedItems (runMain o)).countP (fun it => it.link == u) =
      if ((processURL o u).article).isSome then 1 else 0 := by
    rw [feedItems_runMain, runMain_articles, List.countP_map,
      ← countP_filterMap_article o u (collectUrls o) (nodup_collectUrls o) hu]
    rfl
  constructor
  · intro hfalse
    rw [hcount, processURL_analyze_some o u raw _ hf ht ha]
    simp only [hfalse, pyTruthy, Bool.and_false, Bool.false_eq_true, if_false]
    rfl
  · intro htrue
    have hkvs : kvs ≠ [] := by
      intro he
      rw [he] at htrue
      simp [pyGet, pyGetDef] at htrue
    have hcond : (pyTruthy (.dict kvs) && pyTruthy (pyGet (.dict kvs) "is_important")) = true := by
      rw [htrue]
      simp [pyTruthy, hkvs]
    have hstep := processURL_analyze_some o u raw _ hf ht ha
    rw [hcond, if_pos rfl] at hstep
    constructor
    · rw [hcount, hstep]
      rfl
    · intro it hit hlink
      rw [feedItems_runMain, runMain_articles] at hit
      obtain ⟨a, hain, rfl⟩ := List.mem_map.mp hit
      obtain ⟨v, hvin, hva⟩ := List.mem_filterMap.mp hain
      have hlv : a.link = v := processURL_article_link o v a hva
      have hveq : v = u := by
        have : (mkItem a).link = a.link := rfl
        rw [this, hlv] at hlink
        exact hlink
      subst hveq
      rw [hstep] at hva
      obtain rfl := Option.some.inj hva
      exact ⟨rfl, rfl⟩

/-- Witness for C3: under `oW`, url `a` (verdict `is_important: true`)
produces exactly one feed item and url `b` (verdict `is_important: false`)
produces none. -/
theorem c3_verdict_filtering_witness :
    (feedItems (runMain oW)).countP (fun it => it.link == "a") = 1 ∧
    (feedItems (runMain oW)).countP (fun it => it.link == "b") = 0 := by
  constructor
  · exact ((c3_verdict_filtering oW "a" "# A\nbody a".toList
      [("is_important", .bool true), ("title", .str "TA"), ("category", .str "Law")]
      (by decide) rfl (by decide) rfl).2 rfl).1
  · exact (c3_verdict_filtering oW "b" "# B\nbody b".toList
      [("is_important", .bool false)]
      (by decide) rfl (by decide) rfl).1 rfl

/-- Counterexample to C4 as stated: `c4bad` is a JSON verdict text with no
leading/trailing code-fence markers and no surrounding whitespace (stripping
leaves it unchanged), yet the classifier's cleaning step deletes the fence
marker inside its string payload, altering the parsed verdict.  The claim's
"only those" / "does not alter the JSON payload's content otherwise" is
false on this input. -/
theorem c4_counterexample :
    pyStrip c4bad = c4bad ∧
    cleanGemini c4bad = "\x7b\"t\": \"ab\"\x7d".toList ∧
    cleanGemini c4bad ≠ c4bad ∧
    pyLoads c4bad = some (.dict [("t", .str "a```b")]) ∧
    pyLoads (cleanGemini c4bad) = some (.dict [("t", .str "ab")]) :=
  ⟨rfl, rfl, by decide, rfl, rfl⟩

/-- C4 amended: the classifier removes every occurrence of the markers
"```json" and "```" anywhere in the (whitespace-stripped) response, then
strips whitespace again.  Consequently a fence-wrapped JSON verdict whose
payload contains no fence marker parses to the same verdict as the unwrapped
payload; only payloads containing a fence marker internally are altered. -/
theorem c4_fence_stripping (p : List Char)
    (h : hasSub "```".toList p = false) :
    cleanGemini (wrapJson p) = pyStrip p ∧
    cleanGemini p = pyStrip p ∧
    pyLoads (cleanGemini (wrapJson p)) = pyLoads (cleanGemini p) := by
  have h1 := cleanGemini_wrapJson p h
  have h2 := cleanGemini_fence_free p h
  exact ⟨h1, h2, by rw [h1, h2]⟩

/-- Witness for the amended C4 at a concrete fenced verdict. -/
theorem c4_fence_stripping_witness :
    hasSub "```".toList c4good = false ∧
    cleanGemini (wrapJson c4good) = pyStrip c4good ∧
    pyLoads (cleanGemini (wrapJson c4good)) =
      some (.dict [("is_important", .bool true)]) := by
  have h := c4_fence_stripping c4good (by decide)
  exact ⟨by decide, h.1, by rw [h.1]; rfl⟩

/-- C5: no failure of a per-query or per-URL stage aborts the run — a failed
search contributes an empty URL list, a failed extraction skips the URL
without classifying, unparseable classifier output (such as "not json")
makes the URL non-important, and the run still extracts every deduplicated
URL and still writes the feed exactly once. -/
theorem c5_failure_isolation (o : Oracles) (q u u2 : String)
    (t raw resp : List Char)
    (hs : o.search q = Option.none)
    (hfu : o.fetch u = Option.none)
    (hmt : o.model t = Option.none)
    (hf2 : o.fetch u2 = some raw)
    (ht2 : jinaPost raw ≠ [])
    (hm2 : o.model (jinaPost raw) = some resp)
    (hp2 : pyLoads (cleanGemini resp) = Option.none) :
    search_with_tavily o q = [] ∧
    processURL o u = ⟨[u], [], Option.none⟩ ∧
    analyze_with_gemini o t = Option.none ∧
    processURL o u2 = ⟨[u2], [jinaPost raw], Option.none⟩ ∧
    pyLoads (cleanGemini "not json".toList) = Option.none ∧
    (runMain o).extractorCalls = collectUrls o ∧
    (runMain o).writes.length = 1 := by
  refine ⟨?_, processURL_fetch_none o u hfu,
    by simp [analyze_with_gemini, hmt], ?_, rfl,
    runMain_extractorCalls o, ?_⟩
  · simp [search_with_tavily, hs]
  · apply processURL_analyze_none o u2 raw hf2 ht2
    simp [analyze_with_gemini, hm2, hp2]
  · by_cases he : (((collectUrls o).map (processURL o)).filterMap
        (fun st => st.article)).isEmpty
    · simp only [runMain, he, if_true]
      rfl
    · have he' : (((collectUrls o).map (processURL o)).filterMap
          (fun st => st.article)).isEmpty = false := by simpa using he
      simp only [runMain, he', Bool.false_eq_true, if_false]
      rfl

/-- Witness for C5 under `oNJ`: failed search, failed fetch of `a`,
"not json" classifier output for `b`. -/
theorem c5_failure_isolation_witness :
    search_with_tavily oNJ "x" = [] ∧
    processURL oNJ "a" = ⟨["a"], [], Option.none⟩ ∧
    processURL oNJ "b" = ⟨["b"], ["xb".toList], Option.none⟩ ∧
    analyze_with_gemini oNJ "t".toList = Option.none ∧
    (runMain oNJ).writes.length = 1 := by
  have h := c5_failure_isolation oNJ "x" "a" "b" "t".toList "xb".toList
    "not json".toList rfl rfl rfl rfl (by decide) rfl rfl
  exact ⟨h.1, h.2.1, h.2.2.2.1, h.2.2.1, h.2.2.2.2.2.2⟩

/-- C6: the extractor's post-processing returns the suffix of the fetched
text starting at the first line that, after trimming whitespace, begins with
'#', discarding everything before it; with no such line the text is returned
unmodified. -/
theorem c6_heading_scan (content : List Char) :
    (specFirstHead (splitNL content) = Option.none → jinaPost content = content) ∧
    (∀ i, specFirstHead (splitNL content) = some i →
      jinaPost content = joinNL ((splitNL content).drop i) ∧
      (∃ hd tl, (splitNL content).drop i = hd :: tl ∧ isHeadLine hd = true) ∧
      (∀ l ∈ (splitNL content).take i, isHeadLine l = false) ∧
      jinaPost content <:+ content) := by
  obtain ⟨hnone, hsome⟩ := headingSuffix_spec (splitNL content)
  constructor
  · intro h
    rw [jinaPost, hnone h]
  · intro i hi
    obtain ⟨h1, h2, h3⟩ := hsome i hi
    have hjp : jinaPost content = joinNL ((splitNL content).drop i) := by
      rw [jinaPost, h1]
    refine ⟨hjp, h2, h3, ?_⟩
    rw [hjp]
    have hd : (splitNL content).drop i ≠ [] := by
      obtain ⟨hd, tl, he, -⟩ := h2
      rw [he]
      simp
    have hsuf := joinNL_suffix ((splitNL content).take i)
      ((splitNL content).drop i) hd
    rw [List.take_append_drop, joinNL_splitNL] at hsuf
    exact hsuf

/-- Witness for C6: a text with a preamble line, then a heading line. -/
theorem c6_heading_scan_witness :
    jinaPost "pre\n# T\nbody".toList = "# T\nbody".toList := by
  have h := (c6_heading_scan "pre\n# T\nbody".toList).2 1 rfl
  exact h.1.trans rfl

/-- C7: every accumulated entry's emitted item description is the category
segment followed by the full extracted article text with every newline
replaced by "<br/>" — equivalently the "<br/>"-join of the newline-split
text, which contains no newline. -/
theorem c7_item_description (o : Oracles) (a : Article)
    (h : a ∈ (runMain o).articles) :
    mkItem a ∈ feedItems (runMain o) ∧
    (mkItem a).description = catSeg a.category ++ nlToBr a.full_text ∧
    nlToBr a.full_text = joinBy "<br/>".toList (splitNL a.full_text) ∧
    '\n' ∉ nlToBr a.full_text := by
  refine ⟨?_, rfl, nlToBr_eq_joinBy _, nl_not_mem_nlToBr _⟩
  rw [feedItems_runMain]
  exact List.mem_map_of_mem mkItem h

/-- Witness for C7: the single accumulated article of `oW`. -/
theorem c7_item_description_witness :
    mkItem a0W ∈ feedItems (runMain oW) ∧
    (mkItem a0W).description =
      "<b>【カテゴリ】: Law</b><br/><br/><hr/><br/># A<br/>body a".toList ∧
    '\n' ∉ nlToBr a0W.full_text := by
  have hmem : a0W ∈ (runMain oW).articles := by
    rw [show (runMain oW).articles = [a0W] from rfl]
    exact List.mem_singleton_self _
  have h := c7_item_description oW a0W hmem
  exact ⟨h.1, rfl, h.2.2.2⟩

/-- C9 (implicit): accumulation keys on Python truthiness of the verdict's
`is_important` field (together with the truthiness of the verdict dict
itself, which holds whenever the field is present), not on equality with the
boolean `true`: any truthy field value is accumulated, a missing or falsy
one is not. -/
theorem c9_truthiness_accumulation (o : Oracles) (u : String) (raw : List Char)
    (kvs : List (String × PyVal))
    (hf : o.fetch u = some raw)
    (ht : jinaPost raw ≠ [])
    (ha : analyze_with_gemini o (jinaPost raw) = some (.dict kvs)) :
    ((processURL o u).article).isSome =
      (pyTruthy (.dict kvs) && pyTruthy (pyGet (.dict kvs) "is_important")) := by
  rw [processURL_analyze_some o u raw _ hf ht ha]
  by_cases hc : (pyTruthy (.dict kvs) && pyTruthy (pyGet (.dict kvs) "is_important")) = true
  · simp [hc]
  · simp only [Bool.not_eq_true] at hc
    simp [hc]

/-- Witness for C9: a non-empty-string `is_important` (truthy) is
accumulated while a zero one (falsy) is not. -/
theorem c9_truthiness_accumulation_witness :
    ((processURL oW9 "a").article).isSome = true ∧
    ((processURL oW9 "b").article).isSome = false := by
  constructor
  · exact (c9_truthiness_accumulation oW9 "a" "xa".toList
      [("is_important", .str "yes")] rfl (by decide) rfl).trans rfl
  · exact (c9_truthiness_accumulation oW9 "b" "xb".toList
      [("is_important", .int 0)] rfl (by decide) rfl).trans rfl

/-- C10 (implicit): a successful extraction that returns the empty string is
treated exactly like an extraction failure — no classifier call, no
accumulated article, the same per-URL trace as a failed fetch — because the
caller tests the truthiness of the returned text. -/
theorem c10_empty_extraction (o o2 : Oracles) (u : String)
    (h1 : o.fetch u = some [])
    (h2 : o2.fetch u = Option.none) :
    processURL o u = ⟨[u], [], Option.none⟩ ∧
    processURL o2 u = processURL o u := by
  have ha : processURL o u = ⟨[u], [], Option.none⟩ :=
    processURL_empty_text o u [] h1 rfl
  refine ⟨ha, ?_⟩
  rw [processURL_fetch_none o2 u h2, ha]

/-- Witness for C10: empty fetched body vs failed fetch, same trace. -/
theorem c10_empty_extraction_witness :
    processURL oEmptyFetch "a" = ⟨["a"], [], Option.none⟩ ∧
    processURL oAllFail "a" = processURL oEmptyFetch "a" :=
  c10_empty_extraction oEmptyFetch oAllFail "a" rfl rfl
